import Mathlib

/-!
Shallow embedding of `statsmodels/distributions/copula/copulas.py`.

Numbers are modelled by `ℚ` (the float literal `1e-10` becomes the exact
rational `1/10^10`).  The external collaborators (marginal distributions,
concrete copula families, `scipy.stats.kendalltau`, `np.log`, `np.exp`) are
abstract function parameters, following the interface the spec documents for
them: marginal `cdf`/`ppf`/`logpdf` are elementwise scalar functions, a
copula family's `pdf`/`cdf`/`logpdf` produce one value per input row.

Numpy arrays of dimension ≤ 2 are modelled by `NArr`; the only numpy
operations modelled are the ones the translated code reaches
(`y[..., i]`, `np.column_stack`, `squeeze`, broadcast `+`, elementwise maps),
and fallible operations return `Except PyErr`.
-/

inductive PyErr where
  | indexError
  | valueError
  | typeError
  | notImplementedError
deriving DecidableEq, Repr

/-- A numpy array of dimension 0, 1 or 2 over rationals. -/
inductive NArr where
  | scalar (x : ℚ)
  | vec (xs : List ℚ)
  | mat (xss : List (List ℚ))
deriving DecidableEq, Repr

/-- `y.ndim`. -/
def ndim : NArr → ℕ
  | .scalar _ => 0
  | .vec _ => 1
  | .mat _ => 2

/-- `y.shape[-1]`: the last-axis size.  A 0-d array has an empty shape tuple,
so indexing it raises.  For a 2-d array the row length is read off the first
row (rectangularity is a hypothesis of the theorems below). -/
def shapeLast : NArr → Except PyErr ℕ
  | .scalar _ => .error .indexError
  | .vec v => .ok v.length
  | .mat m => .ok (m.headD []).length

/-- Guarded list indexing, `l[i]` in Python: `IndexError` out of bounds. -/
def listIdx {α : Type} (l : List α) (i : ℕ) (d : α) : Except PyErr α :=
  if i < l.length then .ok (l.getD i d) else .error .indexError

/-- Column `i` of a 2-d array, reading entry `i` of every row.  Total variant
(used only in theorem statements). -/
def colD (xss : List (List ℚ)) (i : ℕ) : List ℚ :=
  xss.map (fun r => r.getD i 0)

/-- Column `i` of a 2-d array: `IndexError` when a row is too short. -/
def col (xss : List (List ℚ)) (i : ℕ) : Except PyErr (List ℚ) :=
  xss.mapM (fun r => if i < r.length then .ok (r.getD i 0) else .error .indexError)

/-- `y[..., i]`. -/
def ixLast : NArr → ℕ → Except PyErr NArr
  | .scalar _, _ => .error .indexError
  | .vec v, i => (listIdx v i 0).map .scalar
  | .mat m, i => (col m i).map .vec

/-- Apply a scalar function elementwise (a vectorized numpy ufunc-style map). -/
def liftM1 (f : ℚ → ℚ) : NArr → NArr
  | .scalar x => .scalar (f x)
  | .vec xs => .vec (xs.map f)
  | .mat xss => .mat (xss.map (fun r => r.map f))

/-- Apply a per-row function (a copula family method: one value per row of a
2-d input, a single value for a 1-d input; a 0-d input is a caller error). -/
def liftRow (f : List ℚ → ℚ) : NArr → Except PyErr NArr
  | .scalar _ => .error .indexError
  | .vec xs => .ok (.scalar (f xs))
  | .mat xss => .ok (.vec (xss.map f))

/-- Broadcast `+`.  Only the shape combinations reachable from the translated
code (0-d and 1-d accumulators) are given numpy's broadcast meaning; the
remaining combinations are rejected. -/
def nadd : NArr → NArr → Except PyErr NArr
  | .scalar a, .scalar b => .ok (.scalar (a + b))
  | .scalar a, .vec v => .ok (.vec (v.map (fun x => a + x)))
  | .vec v, .scalar a => .ok (.vec (v.map (fun x => x + a)))
  | .vec v, .vec w =>
    if v.length = w.length then .ok (.vec (List.zipWith (fun x y => x + y) v w))
    else .error .valueError
  | .scalar a, .mat m => .ok (.mat (m.map (fun r => r.map (fun x => a + x))))
  | .mat m, .scalar a => .ok (.mat (m.map (fun r => r.map (fun x => x + a))))
  | _, _ => .error .valueError

/-- A 0-d or 1-d array as a column for `np.column_stack` (the translated code
only ever stacks 0-d or 1-d pieces; stacking a 2-d piece is unreachable
here and rejected). -/
def toCol : NArr → Except PyErr (List ℚ)
  | .scalar x => .ok [x]
  | .vec v => .ok v
  | .mat _ => .error .valueError

/-- `np.column_stack`: stack equal-length columns into an `(n, k)` array;
`ValueError` on a length mismatch or on an empty input list. -/
def column_stack (cols : List NArr) : Except PyErr (List (List ℚ)) := do
  let cs ← cols.mapM toCol
  match cs with
  | [] => .error .valueError
  | c :: rest =>
    if rest.all (fun r => r.length = c.length) then
      .ok ((List.range c.length).map (fun j => cs.map (fun cl => cl.getD j 0)))
    else .error .valueError

/-- `np.squeeze`: drop axes of size 1. -/
def squeeze : NArr → NArr
  | .scalar x => .scalar x
  | .vec [x] => .scalar x
  | .vec v => .vec v
  | .mat [[x]] => .scalar x
  | .mat [r] => .vec r
  | .mat m =>
    if m.all (fun r => r.length = 1) then .vec (m.map (fun r => r.headD 0))
    else .mat m

/-- A marginal distribution collaborator: elementwise `cdf`, `ppf`, `logpdf`
taking the observation and the positional parameter tuple. -/
structure Marginal where
  cdf0 : ℚ → List ℚ → ℚ
  ppf0 : ℚ → List ℚ → ℚ
  logpdf0 : ℚ → List ℚ → ℚ

/-- Placeholder marginal, only used as the default of guarded list lookups. -/
def mZero : Marginal := ⟨fun _ _ => 0, fun _ _ => 0, fun _ _ => 0⟩

def Marginal.cdfN (m : Marginal) (a : NArr) (args : List ℚ) : NArr :=
  liftM1 (fun x => m.cdf0 x args) a

def Marginal.logpdfN (m : Marginal) (a : NArr) (args : List ℚ) : NArr :=
  liftM1 (fun x => m.logpdf0 x args) a

/-- A concrete copula family collaborator: per-row `cdf`/`logpdf` over points
of the unit hypercube, and a sampler (randomness is abstracted away: the
sample is a function of `nobs` and the parameter tuple). -/
structure CopulaFamily where
  k_dim : ℕ
  cdf0 : List ℚ → List ℚ → ℚ
  logpdf0 : List ℚ → List ℚ → ℚ
  rvsF : ℕ → List ℚ → List (List ℚ)

def CopulaFamily.cdfN (c : CopulaFamily) (u : NArr) (args : List ℚ) : Except PyErr NArr :=
  liftRow (fun r => c.cdf0 r args) u

def CopulaFamily.logpdfN (c : CopulaFamily) (u : NArr) (args : List ℚ) : Except PyErr NArr :=
  liftRow (fun r => c.logpdf0 r args) u

/-- `CopulaDistribution.__init__`: one copula, an ordered list of marginals,
default copula parameters. -/
structure CopulaDistribution where
  copula : CopulaFamily
  marginals : List Marginal
  cop_args : List ℚ

/-- `self.k_vars = len(marginals)`. -/
def CopulaDistribution.k_vars (jd : CopulaDistribution) : ℕ := jd.marginals.length

/-- `marg_args = [()] * y.shape[-1]` — the default marginal-argument list of
`cdf` and `logpdf` (one empty tuple per entry of the input's last axis). -/
def defaultMargArgsEval (y : NArr) : Except PyErr (List (List ℚ)) :=
  (shapeLast y).map (fun m => List.replicate m ([] : List ℚ))

/-- `marg_args = [()] * self.k_vars` — the default marginal-argument list of
`rvs` (one empty tuple per marginal). -/
def CopulaDistribution.defaultMargArgsRvs (jd : CopulaDistribution) : List (List ℚ) :=
  List.replicate jd.k_vars ([] : List ℚ)

/-- Resolve the optional `marg_args` of `cdf`/`logpdf` (`None` falls back to
`[()] * y.shape[-1]`; in `logpdf` the list is wrapped in `tuple(...)`, which
does not change its contents). -/
def resolveMargArgsEval (y : NArr) : Option (List (List ℚ)) → Except PyErr (List (List ℚ))
  | none => defaultMargArgsEval y
  | some l => .ok l

/-- `CopulaDistribution.cdf`. -/
def CopulaDistribution.cdf (jd : CopulaDistribution) (y : NArr)
    (cop_args : Option (List ℚ)) (marg_args : Option (List (List ℚ))) :
    Except PyErr NArr := do
  let ca := cop_args.getD jd.cop_args
  let ma ← resolveMargArgsEval y marg_args
  let cdf_marg ← (List.range jd.k_vars).mapM (fun i => do
    let mi ← listIdx jd.marginals i mZero
    let yi ← ixLast y i
    let ai ← listIdx ma i []
    pure (mi.cdfN yi ai))
  let u0 ← column_stack cdf_marg
  let u := if ndim y = 1 then squeeze (.mat u0) else .mat u0
  jd.copula.cdfN u ca

/-- `CopulaDistribution.logpdf`: accumulate the marginal log-densities while
collecting the marginal cdf values, stack, then add the copula log-pdf. -/
def CopulaDistribution.logpdf (jd : CopulaDistribution) (y : NArr)
    (cop_args : Option (List ℚ)) (marg_args : Option (List (List ℚ))) :
    Except PyErr NArr := do
  let ca := cop_args.getD jd.cop_args
  let ma ← resolveMargArgsEval y marg_args
  let st ← (List.range jd.k_vars).foldlM (fun (st : NArr × List NArr) i => do
    let mi ← listIdx jd.marginals i mZero
    let yi ← ixLast y i
    let ai ← listIdx ma i []
    let l ← nadd st.1 (mi.logpdfN yi ai)
    pure (l, st.2 ++ [mi.cdfN yi ai])) ((NArr.scalar 0, ([] : List NArr)))
  let u0 ← column_stack st.2
  let u := if ndim y = 1 then squeeze (.mat u0) else .mat u0
  let clp ← jd.copula.logpdfN u ca
  nadd st.1 clp

/-- `CopulaDistribution.pdf`: `np.exp(self.logpdf(...))`; `np.exp` is the
abstract elementwise parameter `expF`. -/
def CopulaDistribution.pdf (jd : CopulaDistribution) (expF : ℚ → ℚ) (y : NArr)
    (cop_args : Option (List ℚ)) (marg_args : Option (List (List ℚ))) :
    Except PyErr NArr :=
  (jd.logpdf y cop_args marg_args).map (liftM1 expF)

/-- The float literal `1e-10` as an exact rational. -/
def eps : ℚ := 1 / 10 ^ 10

/-- The boundary contraction `0.5 + (1 - 1e-10) * (u - 0.5)` applied to each
uniform draw before the marginal `ppf` in `CopulaDistribution.rvs`. -/
def contract (u : ℚ) : ℚ := 1 / 2 + (1 - eps) * (u - 1 / 2)

/-- `sample[:, i] = dist.ppf(0.5 + (1 - 1e-10) * (sample[:, i] - 0.5), *marg_args[i])`:
read column `i`, contract, apply the marginal ppf, assign back. -/
def setColPpf (m : Marginal) (i : ℕ) (ar : List ℚ) (s : List (List ℚ)) :
    Except PyErr (List (List ℚ)) :=
  s.mapM (fun row =>
    if i < row.length then .ok (row.set i (m.ppf0 (contract (row.getD i 0)) ar))
    else .error .indexError)

/-- `CopulaDistribution.rvs`: draw a uniform-margin sample from the copula,
then replace each column by the marginal ppf of its contracted values. -/
def CopulaDistribution.rvs (jd : CopulaDistribution) (nobs : ℕ)
    (cop_args : Option (List ℚ)) (marg_args : Option (List (List ℚ))) :
    Except PyErr (List (List ℚ)) := do
  let ca := cop_args.getD jd.cop_args
  let ma := marg_args.getD jd.defaultMargArgsRvs
  let sample := jd.copula.rvsF nobs ca
  (List.enum jd.marginals).foldlM (fun s p => do
    let ai ← listIdx ma p.1 []
    setColPpf p.2 p.1 ai s) sample

/-- The `args` parameter of a family `pdf` as a Python value: normally the
parameter tuple, but a bare number when the caller unpacked a 1-tuple into
the positional slot. -/
inductive PyVal where
  | tup (xs : List ℚ)
  | num (x : ℚ)
deriving DecidableEq, Repr

/-- Base-contract `Copula.logpdf`: `np.log(self.pdf(u, *args))`.  The `*args`
unpacking passes the elements of `args` as separate positional arguments to
a `pdf` whose signature is `pdf(self, u, args=())`: an empty tuple leaves
the default `()`, a 1-tuple binds `args` to the bare number, and two or more
elements overflow the positional slots (`TypeError`).  `np.log` is the
abstract elementwise parameter `logF`; `pdf` is the family override. -/
def Copula.logpdf (logF : ℚ → ℚ) (pdf : NArr → PyVal → NArr) (u : NArr)
    (args : List ℚ) : Except PyErr NArr :=
  match args with
  | [] => .ok (liftM1 logF (pdf u (.tup [])))
  | [a] => .ok (liftM1 logF (pdf u (.num a)))
  | _ :: _ :: _ => .error .typeError

/-- The base-contract `logpdf` as the spec words it: the natural log of the
same family's `pdf` evaluated at `(u, args)`, the parameter tuple passed as
the single `args` parameter.  Stated for comparison with `Copula.logpdf`. -/
def Copula.logpdf_asDocumented (logF : ℚ → ℚ) (pdf : NArr → PyVal → NArr)
    (u : NArr) (args : List ℚ) : Except PyErr NArr :=
  .ok (liftM1 logF (pdf u (.tup args)))

/-- Base-contract `Copula.rvs`: `raise NotImplementedError` (the random state
is an opaque argument). -/
def Copula.rvs (nobs : ℕ) (args : List ℚ) (random_state : Option ℕ) :
    Except PyErr (List (List ℚ)) :=
  .error .notImplementedError

/-- Base-contract `Copula._arg_from_tau`: `raise NotImplementedError`. -/
def Copula._arg_from_tau (tau : ℚ) : Except PyErr ℚ :=
  .error .notImplementedError

/-- `[(i, j) for i in range(k) for j in range(i+1, k)]`: the unordered index
pairs visited by `fit_corr_param`. -/
def pairsBelow (k : ℕ) : List (ℕ × ℕ) :=
  ((List.range k).map (fun i =>
    (List.range' (i + 1) (k - (i + 1))).map (fun j => (i, j)))).flatten

/-- `Copula.fit_corr_param`: Kendall's tau of the first two data columns when
the data has exactly two columns (`x.shape[1] == 2`), otherwise the mean of
tau over all unordered pairs among the first `k_dim` columns; the result is
passed to the family's `_arg_from_tau` hook.  `scipy.stats.kendalltau` is
the abstract parameter `tauF`; the hook and `self.k_dim` are parameters. -/
def Copula.fit_corr_param (tauF : List ℚ → List ℚ → ℚ) (k_dim : ℕ)
    (arg_from_tau : ℚ → Except PyErr ℚ) (data : List (List ℚ)) :
    Except PyErr ℚ := do
  if (data.headD []).length = 2 then
    let c0 ← col data 0
    let c1 ← col data 1
    arg_from_tau (tauF c0 c1)
  else
    let taus ← (pairsBelow k_dim).mapM (fun p => do
      let ci ← col data p.1
      let cj ← col data p.2
      pure (tauF ci cj))
    arg_from_tau (taus.sum / (taus.length : ℚ))

/-- Row mapped through the marginal cdfs: entry `i` is
`marginals[i].cdf(row[i], *marg_args[i])` — one row of the uniform-margin
matrix `u` of `cdf`/`logpdf`.  Reference formula for theorem statements. -/
def margCdfRow (ms : List Marginal) (ma : List (List ℚ)) (row : List ℚ) : List ℚ :=
  (List.range ms.length).map (fun i => (ms.getD i mZero).cdf0 (row.getD i 0) (ma.getD i []))

/-- Sum over `i` of `marginals[i].logpdf(row[i], *marg_args[i])`.  Reference
formula for theorem statements. -/
def margLogpdfSum (ms : List Marginal) (ma : List (List ℚ)) (row : List ℚ) : ℚ :=
  ((List.range ms.length).map
    (fun i => (ms.getD i mZero).logpdf0 (row.getD i 0) (ma.getD i []))).sum

/-- Entrywise reference formula for one `rvs` output row, starting at column
`t`: entry for column `t + q` is `marginals[t+q].ppf(contract(row[t+q]), *marg_args[t+q])`. -/
def rvsRowFrom : ℕ → List Marginal → List (List ℚ) → List ℚ → List ℚ
  | _, [], _, _ => []
  | t, m :: ms, ma, row =>
    m.ppf0 (contract (row.getD t 0)) (ma.getD t []) :: rvsRowFrom (t + 1) ms ma row

/-- The sequential column-assignment loop of `rvs`, applied to a single row:
process the marginals from column `t` on, each overwriting its column with
the ppf of the contracted value. -/
def transformSeg : ℕ → List Marginal → List (List ℚ) → List ℚ → List ℚ
  | _, [], _, row => row
  | t, m :: ms, ma, row =>
    transformSeg (t + 1) ms ma (row.set t (m.ppf0 (contract (row.getD t 0)) (ma.getD t [])))

/-- A concrete marginal used in witnesses: its parameters shift the input. -/
def margA : Marginal :=
  ⟨fun x a => x + a.sum, fun q a => q + a.sum, fun x a => x - a.sum⟩

/-- A second concrete marginal used in witnesses. -/
def margB : Marginal :=
  ⟨fun x _ => 2 * x, fun q _ => q / 2, fun x _ => x + 1⟩

/-- A concrete bivariate copula family used in witnesses; its sampler returns
rows `[0, 1]`, exercising both endpoints of the unit interval. -/
def copEx : CopulaFamily :=
  ⟨2, fun r a => r.sum + a.sum, fun r a => r.sum * (1 + (a.length : ℚ)),
    fun nobs _ => List.replicate nobs [0, 1]⟩

/-- A concrete joint distribution used in witnesses. -/
def jdEx : CopulaDistribution := ⟨copEx, [margA, margB], []⟩

/-- A concrete family `pdf` override that records how its `args` parameter
was bound (as a tuple or as a bare number). -/
def pdfEx : NArr → PyVal → NArr := fun u v =>
  match v with
  | .tup l => liftM1 (fun x => x + l.sum) u
  | .num c => liftM1 (fun x => x * c) u

/-- A concrete stand-in for `scipy.stats.kendalltau`, used in witnesses. -/
def tauEx : List ℚ → List ℚ → ℚ := fun a b => a.sum - b.sum

/-- A concrete tau-inversion hook, used in witnesses. -/
def hookEx : ℚ → Except PyErr ℚ := fun t => .ok (3 * t)

/-! Generic helper lemmas about the `Except` monad and lists. -/

theorem exMapM_ok {α β : Type} (g : α → β) :
    ∀ (l : List α) (f : α → Except PyErr β),
    (∀ a ∈ l, f a = .ok (g a)) → l.mapM f = .ok (l.map g)
  | [], _, _ => rfl
  | a :: t, f, h => by
    have ht := exMapM_ok g t f (fun x hx => h x (List.mem_cons_of_mem a hx))
    simp only [List.mapM_cons, h a (List.mem_cons_self a t), ht, List.map_cons]
    rfl

theorem exMapM_err {α β : Type} :
    ∀ (l1 : List α) (a : α) (l2 : List α) (f : α → Except PyErr β) (e : PyErr),
    (∀ x ∈ l1, ∃ b, f x = .ok b) → f a = .error e →
    (l1 ++ a :: l2).mapM f = .error e
  | [], a, l2, f, e, _, ha => by
    simp only [List.nil_append, List.mapM_cons, ha]
    rfl
  | x :: t, a, l2, f, e, h, ha => by
    obtain ⟨b, hb⟩ := h x (List.mem_cons_self x t)
    have ht := exMapM_err t a l2 f e (fun y hy => h y (List.mem_cons_of_mem x hy)) ha
    simp only [List.cons_append, List.mapM_cons, hb, ht]
    rfl

theorem getD_map_lt {α β : Type} (F : α → β) :
    ∀ (l : List α) (j : ℕ), j < l.length → ∀ (d : β) (e : α),
    (l.map F).getD j d = F (l.getD j e)
  | a :: t, 0, _, _, _ => rfl
  | a :: t, j + 1, h, d, e => by
    simpa using getD_map_lt F t j (by simpa using h) d e

theorem getD_big {α : Type} (l : List α) (j : ℕ) (d : α) (h : l.length ≤ j) :
    l.getD j d = d := by
  unfold List.getD
  rw [List.get?_eq_none.mpr h]
  rfl

theorem getD_set_ne {α : Type} (l : List α) (t q : ℕ) (v : α) (d : α) (h : t ≠ q) :
    (l.set t v).getD q d = l.getD q d := by
  by_cases hq : q < l.length
  · rw [List.getD_eq_getElem _ _ (by simpa using hq), List.getD_eq_getElem _ _ hq]
    exact List.getElem_set_ne h _
  · rw [getD_big _ _ _ (by simpa using Nat.le_of_not_lt hq),
      getD_big _ _ _ (Nat.le_of_not_lt hq)]

theorem range_map_getD {α β : Type} (F : α → β) (d : α) :
    ∀ (l : List α), (List.range l.length).map (fun j => F (l.getD j d)) = l.map F
  | [] => rfl
  | a :: t => by
    have ih := range_map_getD F d t
    simp only [List.length_cons, List.range_succ_eq_map, List.map_cons,
      List.getD_cons_zero, List.map_map, Function.comp_def, List.getD_cons_succ]
    rw [ih]

theorem zipWith_map_same {α : Type} (f g : α → ℚ) :
    ∀ (l : List α),
    List.zipWith (fun x y => x + y) (l.map f) (l.map g) = l.map (fun r => f r + g r)
  | [] => rfl
  | a :: t => by simp [zipWith_map_same f g t]

theorem set_take_succ {α : Type} :
    ∀ (l : List α) (t : ℕ) (v : α), t < l.length →
    (l.set t v).take (t + 1) = l.take t ++ [v]
  | a :: s, 0, v, _ => by simp
  | a :: s, t + 1, v, h => by
    simp only [List.set_cons_succ, List.take_succ_cons, List.cons_append]
    rw [set_take_succ s t v (by simpa using h)]

theorem take_of_length_eq {α : Type} (l : List α) (t : ℕ) (h : l.length = t) :
    l.take t = l := by
  rw [← h, List.take_length]

theorem exBind_ok {α β : Type} (a : α) (f : α → Except PyErr β) :
    (Except.ok a : Except PyErr α) >>= f = f a := rfl

theorem exBind_err {α β : Type} (e : PyErr) (f : α → Except PyErr β) :
    (Except.error e : Except PyErr α) >>= f = .error e := rfl

theorem exBindC_ok {α β : Type} (a : α) (f : α → Except PyErr β) :
    (Except.ok a : Except PyErr α).bind f = f a := rfl

theorem exMap_ok {α β : Type} (f : α → β) (a : α) :
    (Except.ok a : Except PyErr α).map f = .ok (f a) := rfl

/-! Resolution lemmas for the guarded numpy operations. -/

theorem listIdx_lt {α : Type} (l : List α) (i : ℕ) (d : α) (h : i < l.length) :
    listIdx l i d = .ok (l.getD i d) := by
  unfold listIdx
  rw [if_pos h]

theorem col_eq (xss : List (List ℚ)) (i : ℕ) (h : ∀ row ∈ xss, i < row.length) :
    col xss i = .ok (colD xss i) := by
  unfold col colD
  refine exMapM_ok (fun r => r.getD i 0) xss _ (fun r hr => ?_)
  show (if i < r.length then Except.ok (r.getD i 0) else Except.error PyErr.indexError)
    = Except.ok (r.getD i 0)
  rw [if_pos (h r hr)]

theorem col_err (r : List ℚ) (t : List (List ℚ)) (i : ℕ) (h : r.length ≤ i) :
    col (r :: t) i = .error .indexError := by
  have hr : ¬ i < r.length := Nat.not_lt.mpr h
  have := exMapM_err [] r t
    (fun row => if i < row.length then .ok (row.getD i 0) else .error .indexError)
    .indexError (by simp) (by simp [hr])
  simpa [col] using this

theorem ixLast_mat (xss : List (List ℚ)) (i : ℕ) (h : ∀ row ∈ xss, i < row.length) :
    ixLast (.mat xss) i = .ok (.vec (colD xss i)) := by
  show Except.map NArr.vec (col xss i) = _
  rw [col_eq xss i h]
  rfl

theorem ixLast_vec (v : List ℚ) (i : ℕ) (h : i < v.length) :
    ixLast (.vec v) i = .ok (.scalar (v.getD i 0)) := by
  show Except.map NArr.scalar (listIdx v i 0) = _
  rw [listIdx_lt v i 0 h]
  rfl

theorem column_stack_eval (cs : List (List ℚ)) (n : ℕ) (cols : List NArr)
    (hmap : cols.mapM toCol = .ok cs) (hne : cs ≠ [])
    (hlen : ∀ c ∈ cs, c.length = n) :
    column_stack cols =
      .ok ((List.range n).map (fun j => cs.map (fun cl => cl.getD j 0))) := by
  unfold column_stack
  rw [hmap]
  rcases cs with _ | ⟨c, rest⟩
  · exact absurd rfl hne
  show (if rest.all (fun r => r.length = c.length) then _ else _) = _
  rw [if_pos ?hcond]
  case hcond =>
    refine List.all_eq_true.mpr fun r hr => ?_
    exact decide_eq_true (by
      rw [hlen r (List.mem_cons_of_mem c hr), hlen c (List.mem_cons_self c rest)])
  rw [hlen c (List.mem_cons_self c rest)]

theorem stack_cols_vec (idxs : List ℕ) (hkne : idxs ≠ []) (xss : List (List ℚ))
    (f : ℕ → List ℚ → ℚ) :
    column_stack (idxs.map (fun i => NArr.vec (xss.map (f i)))) =
    .ok (xss.map (fun row => idxs.map (fun i => f i row))) := by
  have hall : ∀ a ∈ idxs.map (fun i => NArr.vec (xss.map (f i))),
      toCol a = .ok ((fun a => match a with
        | NArr.scalar x => [x]
        | NArr.vec v => v
        | NArr.mat _ => ([] : List ℚ)) a) := by
    intro a ha
    obtain ⟨i, _, rfl⟩ := List.mem_map.mp ha
    rfl
  have h1 := exMapM_ok _ _ toCol hall
  rw [List.map_map] at h1
  have h1' : (idxs.map (fun i => NArr.vec (xss.map (f i)))).mapM toCol
      = .ok (idxs.map (fun i => xss.map (f i))) := h1
  have hne : idxs.map (fun i => xss.map (f i)) ≠ [] := by
    simpa only [ne_eq, List.map_eq_nil_iff] using hkne
  have hlen : ∀ c ∈ idxs.map (fun i => xss.map (f i)),
      c.length = xss.length := by
    intro c hc
    obtain ⟨i, _, rfl⟩ := List.mem_map.mp hc
    exact List.length_map xss (f i)
  rw [column_stack_eval _ xss.length _ h1' hne hlen]
  have hrows : (List.range xss.length).map
      (fun j => (idxs.map (fun i => xss.map (f i))).map (fun cl => cl.getD j 0))
      = xss.map (fun row => idxs.map (fun i => f i row)) := by
    rw [← range_map_getD (fun row => idxs.map (fun i => f i row)) [] xss]
    refine List.map_congr_left fun j hj => ?_
    rw [List.map_map]
    refine List.map_congr_left fun i _ => ?_
    exact getD_map_lt (f i) xss j (List.mem_range.mp hj) 0 []
  rw [hrows]

theorem stack_cols_scalar (idxs : List ℕ) (hkne : idxs ≠ []) (v : ℕ → ℚ) :
    column_stack (idxs.map (fun i => NArr.scalar (v i))) =
    .ok [idxs.map v] := by
  have hall : ∀ a ∈ idxs.map (fun i => NArr.scalar (v i)),
      toCol a = .ok ((fun a => match a with
        | NArr.scalar x => [x]
        | NArr.vec w => w
        | NArr.mat _ => ([] : List ℚ)) a) := by
    intro a ha
    obtain ⟨i, _, rfl⟩ := List.mem_map.mp ha
    rfl
  have h1 := exMapM_ok _ _ toCol hall
  rw [List.map_map] at h1
  have h1' : (idxs.map (fun i => NArr.scalar (v i))).mapM toCol
      = .ok (idxs.map (fun i => [v i])) := h1
  have hne : idxs.map (fun i => [v i]) ≠ [] := by
    simpa only [ne_eq, List.map_eq_nil_iff] using hkne
  have hlen : ∀ c ∈ idxs.map (fun i => [v i]), c.length = 1 := by
    intro c hc
    obtain ⟨i, _, rfl⟩ := List.mem_map.mp hc
    rfl
  rw [column_stack_eval _ 1 _ h1' hne hlen]
  rw [show (List.range 1) = [0] from rfl]
  simp only [List.map_cons, List.map_nil, List.map_map]
  rfl

theorem squeeze_mat_single (r : List ℚ) (h2 : 2 ≤ r.length) :
    squeeze (.mat [r]) = .vec r := by
  rcases r with _ | ⟨a, _ | ⟨b, t⟩⟩
  · simp at h2
  · simp at h2
  · rfl

theorem resolve_some (y : NArr) (l : List (List ℚ)) :
    resolveMargArgsEval y (some l) = .ok l := rfl

theorem resolve_none_vec (ys : List ℚ) :
    resolveMargArgsEval (.vec ys) none = .ok (List.replicate ys.length []) := rfl

theorem resolve_none_mat (r : List ℚ) (t : List (List ℚ)) :
    resolveMargArgsEval (.mat (r :: t)) none = .ok (List.replicate r.length []) := rfl

/-! Evaluation of `cdf` on a 2-d input. -/

theorem cdf_mat_eq (jd : CopulaDistribution) (ca? : Option (List ℚ))
    (ma? : Option (List (List ℚ))) (maR : List (List ℚ)) (xss : List (List ℚ))
    (hres : resolveMargArgsEval (.mat xss) ma? = .ok maR)
    (hk : 1 ≤ jd.k_vars) (hmaR : jd.k_vars ≤ maR.length)
    (hrow : ∀ row ∈ xss, jd.k_vars ≤ row.length) :
    jd.cdf (.mat xss) ca? ma? = .ok (.vec (xss.map (fun row =>
      jd.copula.cdf0 (margCdfRow jd.marginals maR row) (ca?.getD jd.cop_args)))) := by
  unfold CopulaDistribution.cdf
  simp only [hres, exBind_ok]
  have hbodyAll : ∀ i ∈ List.range jd.k_vars, (do
      let mi ← listIdx jd.marginals i mZero
      let yi ← ixLast (.mat xss) i
      let ai ← listIdx maR i []
      pure (mi.cdfN yi ai) : Except PyErr NArr)
      = .ok (NArr.vec (xss.map (fun row =>
        (jd.marginals.getD i mZero).cdf0 (row.getD i 0) (maR.getD i [])))) := by
    intro i hi
    have hik := List.mem_range.mp hi
    simp only [listIdx_lt jd.marginals i mZero hik,
      ixLast_mat xss i (fun row hr => lt_of_lt_of_le hik (hrow row hr)),
      listIdx_lt maR i [] (lt_of_lt_of_le hik hmaR), exBind_ok]
    show Except.ok (NArr.vec ((colD xss i).map (fun x =>
        (jd.marginals.getD i mZero).cdf0 x (maR.getD i []))))
      = Except.ok (NArr.vec (xss.map (fun row =>
        (jd.marginals.getD i mZero).cdf0 (row.getD i 0) (maR.getD i []))))
    unfold colD
    rw [List.map_map]
    rfl
  rw [exMapM_ok _ _ _ hbodyAll]
  simp only [exBind_ok]
  rw [stack_cols_vec (List.range jd.k_vars)
    (by simp only [ne_eq, List.range_eq_nil]; omega) xss
    (fun i row => (jd.marginals.getD i mZero).cdf0 (row.getD i 0) (maR.getD i []))]
  simp only [exBind_ok]
  rw [if_neg (by simp [ndim])]
  show Except.ok (NArr.vec ((xss.map (fun row => (List.range jd.k_vars).map
      (fun i => (jd.marginals.getD i mZero).cdf0 (row.getD i 0) (maR.getD i [])))).map
      (fun r => jd.copula.cdf0 r (ca?.getD jd.cop_args)))) = _
  rw [List.map_map]
  rfl

/-! State lemmas for the accumulation loop of `logpdf`. -/

theorem nadd_vec_formula (xss : List (List ℚ)) (h g2 : List ℚ → ℚ) (st : NArr)
    (hst : (st = .scalar 0 ∧ ∀ r, h r = 0) ∨ st = .vec (xss.map h)) :
    nadd st (.vec (xss.map g2)) = .ok (.vec (xss.map (fun r => h r + g2 r))) := by
  rcases hst with ⟨hst, hz⟩ | hst
  · subst hst
    have hmaps : (xss.map g2).map (fun x => 0 + x) = xss.map (fun r => h r + g2 r) := by
      rw [List.map_map]
      refine List.map_congr_left fun r _ => ?_
      simp [hz r]
    show Except.ok (NArr.vec ((xss.map g2).map (fun x => 0 + x)))
      = Except.ok (NArr.vec (xss.map (fun r => h r + g2 r)))
    rw [hmaps]
  · subst hst
    show (if (xss.map h).length = (xss.map g2).length then
        Except.ok (NArr.vec (List.zipWith (fun x y => x + y) (xss.map h) (xss.map g2)))
      else Except.error PyErr.valueError)
      = Except.ok (NArr.vec (xss.map (fun r => h r + g2 r)))
    rw [if_pos (by simp)]
    rw [zipWith_map_same]

theorem foldChainVec (xss : List (List ℚ))
    (step : NArr × List NArr → ℕ → Except PyErr (NArr × List NArr))
    (gl : ℕ → List ℚ → ℚ) (addv : ℕ → NArr) :
    ∀ (i0 : ℕ) (idxs : List ℕ) (h : List ℚ → ℚ) (st : NArr) (acc : List NArr),
    (∀ (st' : NArr × List NArr) (j : ℕ), j ∈ i0 :: idxs →
      step st' j = (nadd st'.1 (.vec (xss.map (gl j)))).bind
        (fun l => .ok (l, st'.2 ++ [addv j]))) →
    ((st = .scalar 0 ∧ ∀ r, h r = 0) ∨ st = .vec (xss.map h)) →
    List.foldlM step (st, acc) (i0 :: idxs) =
      .ok (.vec (xss.map (fun row => h row + ((i0 :: idxs).map (fun j => gl j row)).sum)),
        acc ++ (i0 :: idxs).map addv)
  | i0, [], h, st, acc, hstep, hst => by
    rw [List.foldlM_cons, hstep (st, acc) i0 (List.mem_cons_self _ _)]
    show ((nadd st (.vec (xss.map (gl i0)))).bind _) >>= _ = _
    rw [nadd_vec_formula xss h (gl i0) st hst]
    simp only [List.map_cons, List.map_nil, List.sum_cons, List.sum_nil, add_zero]
    rfl
  | i0, i1 :: rest, h, st, acc, hstep, hst => by
    rw [List.foldlM_cons, hstep (st, acc) i0 (List.mem_cons_self _ _)]
    show ((nadd st (.vec (xss.map (gl i0)))).bind _) >>= _ = _
    rw [nadd_vec_formula xss h (gl i0) st hst]
    have ih := foldChainVec xss step gl addv i1 rest (fun r => h r + gl i0 r)
      (.vec (xss.map (fun r => h r + gl i0 r))) (acc ++ [addv i0])
      (fun st' j hj => hstep st' j (List.mem_cons_of_mem _ hj)) (Or.inr rfl)
    show List.foldlM step (.vec (xss.map (fun r => h r + gl i0 r)), acc ++ [addv i0])
      (i1 :: rest) = _
    rw [ih]
    simp only [List.map_cons, List.sum_cons, List.append_assoc, List.singleton_append,
      add_assoc]

theorem foldChainScalar
    (step : NArr × List NArr → ℕ → Except PyErr (NArr × List NArr))
    (gl : ℕ → ℚ) (addv : ℕ → NArr) :
    ∀ (idxs : List ℕ) (s : ℚ) (acc : List NArr),
    (∀ (st' : NArr × List NArr) (j : ℕ), j ∈ idxs →
      step st' j = (nadd st'.1 (.scalar (gl j))).bind
        (fun l => .ok (l, st'.2 ++ [addv j]))) →
    List.foldlM step (.scalar s, acc) idxs =
      .ok (.scalar (s + (idxs.map gl).sum), acc ++ idxs.map addv)
  | [], s, acc, _ => by
    simp only [List.foldlM_nil, List.map_nil, List.sum_nil, add_zero, List.append_nil]
    rfl
  | i :: rest, s, acc, hstep => by
    rw [List.foldlM_cons, hstep (.scalar s, acc) i (List.mem_cons_self _ _)]
    have ih := foldChainScalar step gl addv rest (s + gl i) (acc ++ [addv i])
      (fun st' j hj => hstep st' j (List.mem_cons_of_mem _ hj))
    show List.foldlM step (.scalar (s + gl i), acc ++ [addv i]) rest = _
    rw [ih]
    simp only [List.map_cons, List.sum_cons, List.append_assoc, List.singleton_append,
      add_assoc]

/-! Evaluation of `logpdf` on a 2-d input. -/

theorem logpdf_mat_eq (jd : CopulaDistribution) (ca? : Option (List ℚ))
    (ma? : Option (List (List ℚ))) (maR : List (List ℚ)) (xss : List (List ℚ))
    (hres : resolveMargArgsEval (.mat xss) ma? = .ok maR)
    (hk : 1 ≤ jd.k_vars) (hmaR : jd.k_vars ≤ maR.length)
    (hrow : ∀ row ∈ xss, jd.k_vars ≤ row.length) :
    jd.logpdf (.mat xss) ca? ma? = .ok (.vec (xss.map (fun row =>
      margLogpdfSum jd.marginals maR row
        + jd.copula.logpdf0 (margCdfRow jd.marginals maR row) (ca?.getD jd.cop_args)))) := by
  unfold CopulaDistribution.logpdf
  simp only [hres, exBind_ok]
  obtain ⟨i0, idxs, hrange⟩ : ∃ i0 idxs, List.range jd.k_vars = i0 :: idxs := by
    cases hkv : List.range jd.k_vars with
    | nil =>
      rw [List.range_eq_nil] at hkv
      omega
    | cons a b => exact ⟨a, b, rfl⟩
  rw [hrange]
  have hstep : ∀ (st' : NArr × List NArr) (j : ℕ), j ∈ i0 :: idxs → (do
      let mi ← listIdx jd.marginals j mZero
      let yi ← ixLast (.mat xss) j
      let ai ← listIdx maR j []
      let l ← nadd st'.1 (mi.logpdfN yi ai)
      pure (l, st'.2 ++ [mi.cdfN yi ai]) : Except PyErr (NArr × List NArr))
      = (nadd st'.1 (.vec (xss.map (fun row =>
          (jd.marginals.getD j mZero).logpdf0 (row.getD j 0) (maR.getD j []))))).bind
        (fun l => .ok (l, st'.2 ++ [NArr.vec (xss.map (fun row =>
          (jd.marginals.getD j mZero).cdf0 (row.getD j 0) (maR.getD j [])))])) := by
    intro st' j hj
    have hjk : j < jd.k_vars := List.mem_range.mp (hrange ▸ hj)
    have h1 : (jd.marginals.getD j mZero).logpdfN (.vec (colD xss j)) (maR.getD j [])
        = .vec (xss.map (fun row =>
          (jd.marginals.getD j mZero).logpdf0 (row.getD j 0) (maR.getD j []))) := by
      show NArr.vec ((colD xss j).map (fun x =>
        (jd.marginals.getD j mZero).logpdf0 x (maR.getD j []))) = _
      unfold colD
      rw [List.map_map]
      rfl
    have h2 : (jd.marginals.getD j mZero).cdfN (.vec (colD xss j)) (maR.getD j [])
        = .vec (xss.map (fun row =>
          (jd.marginals.getD j mZero).cdf0 (row.getD j 0) (maR.getD j []))) := by
      show NArr.vec ((colD xss j).map (fun x =>
        (jd.marginals.getD j mZero).cdf0 x (maR.getD j []))) = _
      unfold colD
      rw [List.map_map]
      rfl
    simp only [listIdx_lt jd.marginals j mZero hjk,
      ixLast_mat xss j (fun row hr => lt_of_lt_of_le hjk (hrow row hr)),
      listIdx_lt maR j [] (lt_of_lt_of_le hjk hmaR), exBind_ok, h1, h2]
    rfl
  rw [foldChainVec xss _
    (fun j row => (jd.marginals.getD j mZero).logpdf0 (row.getD j 0) (maR.getD j []))
    (fun j => NArr.vec (xss.map (fun row =>
      (jd.marginals.getD j mZero).cdf0 (row.getD j 0) (maR.getD j []))))
    i0 idxs (fun _ => 0) (.scalar 0) [] hstep (Or.inl ⟨rfl, fun _ => rfl⟩)]
  simp only [exBind_ok, List.nil_append]
  rw [stack_cols_vec (i0 :: idxs) (List.cons_ne_nil i0 idxs) xss
    (fun j row => (jd.marginals.getD j mZero).cdf0 (row.getD j 0) (maR.getD j []))]
  simp only [exBind_ok]
  rw [if_neg (by simp [ndim])]
  have hclp : jd.copula.logpdfN (.mat (xss.map (fun row => (i0 :: idxs).map
      (fun j => (jd.marginals.getD j mZero).cdf0 (row.getD j 0) (maR.getD j [])))))
      (ca?.getD jd.cop_args)
      = .ok (.vec (xss.map (fun row => jd.copula.logpdf0 ((i0 :: idxs).map
        (fun j => (jd.marginals.getD j mZero).cdf0 (row.getD j 0) (maR.getD j [])))
        (ca?.getD jd.cop_args)))) := by
    show Except.ok (NArr.vec ((xss.map (fun row => (i0 :: idxs).map
      (fun j => (jd.marginals.getD j mZero).cdf0 (row.getD j 0) (maR.getD j [])))).map
      (fun r => jd.copula.logpdf0 r (ca?.getD jd.cop_args)))) = _
    rw [List.map_map]
    rfl
  simp only [hclp, exBind_ok]
  rw [nadd_vec_formula xss
    (fun row => (0 : ℚ) + ((i0 :: idxs).map (fun j =>
      (jd.marginals.getD j mZero).logpdf0 (row.getD j 0) (maR.getD j []))).sum)
    (fun row => jd.copula.logpdf0 ((i0 :: idxs).map
      (fun j => (jd.marginals.getD j mZero).cdf0 (row.getD j 0) (maR.getD j [])))
      (ca?.getD jd.cop_args))
    _ (Or.inr rfl)]
  refine congrArg _ (congrArg _ (List.map_congr_left fun row _ => ?_))
  rw [← hrange]
  simp only [zero_add]
  rfl

/-! Evaluation of `cdf` and `logpdf` on a 1-d input. -/

theorem cdf_vec_eq (jd : CopulaDistribution) (ca? : Option (List ℚ))
    (ma? : Option (List (List ℚ))) (maR : List (List ℚ)) (ys : List ℚ)
    (hres : resolveMargArgsEval (.vec ys) ma? = .ok maR)
    (hk : 2 ≤ jd.k_vars) (hmaR : jd.k_vars ≤ maR.length)
    (hys : jd.k_vars ≤ ys.length) :
    jd.cdf (.vec ys) ca? ma? = .ok (.scalar
      (jd.copula.cdf0 (margCdfRow jd.marginals maR ys) (ca?.getD jd.cop_args))) := by
  unfold CopulaDistribution.cdf
  simp only [hres, exBind_ok]
  have hbodyAll : ∀ i ∈ List.range jd.k_vars, (do
      let mi ← listIdx jd.marginals i mZero
      let yi ← ixLast (.vec ys) i
      let ai ← listIdx maR i []
      pure (mi.cdfN yi ai) : Except PyErr NArr)
      = .ok (NArr.scalar
        ((jd.marginals.getD i mZero).cdf0 (ys.getD i 0) (maR.getD i []))) := by
    intro i hi
    have hik := List.mem_range.mp hi
    simp only [listIdx_lt jd.marginals i mZero hik,
      ixLast_vec ys i (lt_of_lt_of_le hik hys),
      listIdx_lt maR i [] (lt_of_lt_of_le hik hmaR), exBind_ok]
    rfl
  rw [exMapM_ok _ _ _ hbodyAll]
  simp only [exBind_ok]
  rw [stack_cols_scalar (List.range jd.k_vars)
    (by simp only [ne_eq, List.range_eq_nil]; omega)
    (fun i => (jd.marginals.getD i mZero).cdf0 (ys.getD i 0) (maR.getD i []))]
  simp only [exBind_ok]
  rw [if_pos (show ndim (NArr.vec ys) = 1 from rfl)]
  rw [squeeze_mat_single _ (by
    rw [List.length_map, List.length_range]
    exact hk)]
  rfl

theorem logpdf_vec_eq (jd : CopulaDistribution) (ca? : Option (List ℚ))
    (ma? : Option (List (List ℚ))) (maR : List (List ℚ)) (ys : List ℚ)
    (hres : resolveMargArgsEval (.vec ys) ma? = .ok maR)
    (hk : 2 ≤ jd.k_vars) (hmaR : jd.k_vars ≤ maR.length)
    (hys : jd.k_vars ≤ ys.length) :
    jd.logpdf (.vec ys) ca? ma? = .ok (.scalar (margLogpdfSum jd.marginals maR ys
      + jd.copula.logpdf0 (margCdfRow jd.marginals maR ys) (ca?.getD jd.cop_args))) := by
  unfold CopulaDistribution.logpdf
  simp only [hres, exBind_ok]
  have hstep : ∀ (st' : NArr × List NArr) (j : ℕ), j ∈ List.range jd.k_vars → (do
      let mi ← listIdx jd.marginals j mZero
      let yi ← ixLast (.vec ys) j
      let ai ← listIdx maR j []
      let l ← nadd st'.1 (mi.logpdfN yi ai)
      pure (l, st'.2 ++ [mi.cdfN yi ai]) : Except PyErr (NArr × List NArr))
      = (nadd st'.1 (.scalar
          ((jd.marginals.getD j mZero).logpdf0 (ys.getD j 0) (maR.getD j [])))).bind
        (fun l => .ok (l, st'.2 ++ [NArr.scalar
          ((jd.marginals.getD j mZero).cdf0 (ys.getD j 0) (maR.getD j []))])) := by
    intro st' j hj
    have hjk : j < jd.k_vars := List.mem_range.mp hj
    simp only [listIdx_lt jd.marginals j mZero hjk,
      ixLast_vec ys j (lt_of_lt_of_le hjk hys),
      listIdx_lt maR j [] (lt_of_lt_of_le hjk hmaR), exBind_ok]
    rfl
  rw [foldChainScalar _
    (fun j => (jd.marginals.getD j mZero).logpdf0 (ys.getD j 0) (maR.getD j []))
    (fun j => NArr.scalar
      ((jd.marginals.getD j mZero).cdf0 (ys.getD j 0) (maR.getD j [])))
    (List.range jd.k_vars) 0 [] hstep]
  simp only [exBind_ok, List.nil_append]
  rw [stack_cols_scalar (List.range jd.k_vars)
    (by simp only [ne_eq, List.range_eq_nil]; omega)
    (fun i => (jd.marginals.getD i mZero).cdf0 (ys.getD i 0) (maR.getD i []))]
  simp only [exBind_ok]
  rw [if_pos (show ndim (NArr.vec ys) = 1 from rfl)]
  rw [squeeze_mat_single _ (by
    rw [List.length_map, List.length_range]
    exact hk)]
  show Except.ok (NArr.scalar (((0 : ℚ) + ((List.range jd.k_vars).map (fun j =>
      (jd.marginals.getD j mZero).logpdf0 (ys.getD j 0) (maR.getD j []))).sum)
      + jd.copula.logpdf0 ((List.range jd.k_vars).map (fun i =>
        (jd.marginals.getD i mZero).cdf0 (ys.getD i 0) (maR.getD i [])))
        (ca?.getD jd.cop_args))) = _
  rw [zero_add]
  rfl

instance {ε α : Type} [DecidableEq ε] [DecidableEq α] : DecidableEq (Except ε α)
  | .ok a, .ok b =>
    if h : a = b then .isTrue (by rw [h])
    else .isFalse (by intro hh; cases hh; exact h rfl)
  | .ok _, .error _ => .isFalse (by intro h; cases h)
  | .error _, .ok _ => .isFalse (by intro h; cases h)
  | .error e, .error f =>
    if h : e = f then .isTrue (by rw [h])
    else .isFalse (by intro hh; cases hh; exact h rfl)

/-- `fit_corr_param` as the claim words it: branch on `k_dim == 2` rather
than on the number of data columns.  Stated for comparison with
`Copula.fit_corr_param`. -/
def Copula.fit_corr_param_asStated (tauF : List ℚ → List ℚ → ℚ) (k_dim : ℕ)
    (arg_from_tau : ℚ → Except PyErr ℚ) (data : List (List ℚ)) :
    Except PyErr ℚ := do
  if k_dim = 2 then
    let c0 ← col data 0
    let c1 ← col data 1
    arg_from_tau (tauF c0 c1)
  else
    let taus ← (pairsBelow k_dim).mapM (fun p => do
      let ci ← col data p.1
      let cj ← col data p.2
      pure (tauF ci cj))
    arg_from_tau (taus.sum / (taus.length : ℚ))

/-! Evaluation of `rvs`: the sequential column-assignment loop. -/

theorem rvsRowFrom_congr :
    ∀ (ms : List Marginal) (t : ℕ) (ma : List (List ℚ)) (r1 r2 : List ℚ),
    (∀ q, t ≤ q → r1.getD q 0 = r2.getD q 0) →
    rvsRowFrom t ms ma r1 = rvsRowFrom t ms ma r2
  | [], _, _, _, _, _ => rfl
  | m :: ms, t, ma, r1, r2, h => by
    show _ :: rvsRowFrom (t + 1) ms ma r1 = _ :: rvsRowFrom (t + 1) ms ma r2
    rw [h t (le_refl t),
      rvsRowFrom_congr ms (t + 1) ma r1 r2 (fun q hq => h q (by omega))]

theorem rvs_fold (ma : List (List ℚ)) :
    ∀ (ms : List Marginal) (t : ℕ) (s : List (List ℚ)),
    (∀ row ∈ s, t + ms.length ≤ row.length) → t + ms.length ≤ ma.length →
    List.foldlM (fun s' (p : ℕ × Marginal) => do
      let ai ← listIdx ma p.1 []
      setColPpf p.2 p.1 ai s') s (List.enumFrom t ms)
    = .ok (s.map (transformSeg t ms ma))
  | [], t, s, _, _ => by
    show List.foldlM _ s [] = _
    rw [List.foldlM_nil]
    have hmap : s.map (transformSeg t [] ma) = s.map id :=
      List.map_congr_left fun r _ => rfl
    rw [hmap, List.map_id]
    rfl
  | m :: ms, t, s, hl, hm => by
    have hma : t < ma.length := by
      simp only [List.length_cons] at hm
      omega
    show List.foldlM _ s ((t, m) :: List.enumFrom (t + 1) ms) = _
    rw [List.foldlM_cons]
    have hset : setColPpf m t (ma.getD t []) s = .ok (s.map (fun row =>
        row.set t (m.ppf0 (contract (row.getD t 0)) (ma.getD t [])))) := by
      unfold setColPpf
      refine exMapM_ok
        (fun row => row.set t (m.ppf0 (contract (row.getD t 0)) (ma.getD t []))) s _
        (fun row hrow => ?_)
      have hrl : t < row.length := by
        have := hl row hrow
        simp only [List.length_cons] at this
        omega
      rw [if_pos hrl]
    simp only [listIdx_lt ma t [] hma, exBind_ok, hset]
    have ih := rvs_fold ma ms (t + 1) (s.map (fun row =>
        row.set t (m.ppf0 (contract (row.getD t 0)) (ma.getD t []))))
      (fun row hrow => by
        obtain ⟨r, hr, rfl⟩ := List.mem_map.mp hrow
        rw [List.length_set]
        have := hl r hr
        simp only [List.length_cons] at this
        omega)
      (by
        simp only [List.length_cons] at hm
        omega)
    rw [ih, List.map_map]
    rfl

theorem transformSeg_rvsRow :
    ∀ (ms : List Marginal) (t : ℕ) (ma : List (List ℚ)) (row : List ℚ),
    row.length = t + ms.length →
    transformSeg t ms ma row = row.take t ++ rvsRowFrom t ms ma row
  | [], t, ma, row, h => by
    show row = row.take t ++ []
    rw [List.append_nil, take_of_length_eq row t (by simpa using h)]
  | m :: ms, t, ma, row, h => by
    have ht : t < row.length := by
      simp only [List.length_cons] at h
      omega
    show transformSeg (t + 1) ms ma
      (row.set t (m.ppf0 (contract (row.getD t 0)) (ma.getD t []))) = _
    rw [transformSeg_rvsRow ms (t + 1) ma _ (by
      rw [List.length_set]
      simp only [List.length_cons] at h
      omega)]
    rw [set_take_succ row t _ ht]
    rw [rvsRowFrom_congr ms (t + 1) ma _ row
      (fun q hq => getD_set_ne row t q _ 0 (by omega))]
    show (row.take t ++ [m.ppf0 (contract (row.getD t 0)) (ma.getD t [])])
        ++ rvsRowFrom (t + 1) ms ma row
      = row.take t ++ (m.ppf0 (contract (row.getD t 0)) (ma.getD t [])
        :: rvsRowFrom (t + 1) ms ma row)
    rw [List.append_assoc, List.singleton_append]

theorem rvsRowFrom_getD :
    ∀ (ms : List Marginal) (t i : ℕ) (ma : List (List ℚ)) (row : List ℚ),
    i < ms.length →
    (rvsRowFrom t ms ma row).getD i 0
      = (ms.getD i mZero).ppf0 (contract (row.getD (t + i) 0)) (ma.getD (t + i) [])
  | m :: ms, t, 0, ma, row, _ => by
    show (m.ppf0 (contract (row.getD t 0)) (ma.getD t [])
      :: rvsRowFrom (t + 1) ms ma row).getD 0 0 = _
    rw [List.getD_cons_zero]
    rfl
  | m :: ms, t, i + 1, ma, row, h => by
    show (m.ppf0 (contract (row.getD t 0)) (ma.getD t [])
      :: rvsRowFrom (t + 1) ms ma row).getD (i + 1) 0 = _
    rw [List.getD_cons_succ,
      rvsRowFrom_getD ms (t + 1) i ma row (by simpa using h)]
    have harith : t + 1 + i = t + (i + 1) := by omega
    rw [harith]
    rfl

theorem rvs_eq (jd : CopulaDistribution) (nobs : ℕ) (ca? : Option (List ℚ))
    (ma? : Option (List (List ℚ)))
    (hmaR : jd.k_vars ≤ (ma?.getD jd.defaultMargArgsRvs).length)
    (hs : ∀ row ∈ jd.copula.rvsF nobs (ca?.getD jd.cop_args),
      row.length = jd.k_vars) :
    jd.rvs nobs ca? ma? = .ok ((jd.copula.rvsF nobs (ca?.getD jd.cop_args)).map
      (transformSeg 0 jd.marginals (ma?.getD jd.defaultMargArgsRvs))) := by
  unfold CopulaDistribution.rvs
  show List.foldlM _ (jd.copula.rvsF nobs (ca?.getD jd.cop_args))
    (List.enumFrom 0 jd.marginals) = _
  exact rvs_fold (ma?.getD jd.defaultMargArgsRvs) jd.marginals 0 _
    (fun row hrow => by
      rw [hs row hrow]
      simp [CopulaDistribution.k_vars])
    (by simpa [CopulaDistribution.k_vars] using hmaR)

/-! Error path of `cdf`/`logpdf` when the input has fewer columns than
`k_vars`: the failure is an IndexError at the per-column extraction
`y[..., i]`, reached before any column stacking. -/

theorem ixLast_mat_err (r0 : List ℚ) (tl : List (List ℚ)) (i : ℕ)
    (h : r0.length ≤ i) : ixLast (.mat (r0 :: tl)) i = .error .indexError := by
  show Except.map NArr.vec (col (r0 :: tl) i) = _
  rw [col_err r0 tl i h]
  rfl

theorem range_split_at (k c : ℕ) (h : c < k) :
    List.range k = List.range c ++ c :: (List.range (k - c - 1)).map (fun x => c + (x + 1)) := by
  have h1 : k = c + (k - c - 1 + 1) := by omega
  rw [h1, List.range_add, List.range_succ_eq_map]
  simp only [List.map_cons, List.map_map, Nat.add_zero, Function.comp_def,
    Nat.succ_eq_add_one]
  have h2 : c + (k - c - 1 + 1) - c - 1 = k - c - 1 := by omega
  rw [h2]

theorem cdf_short_err (jd : CopulaDistribution) (ca? : Option (List ℚ))
    (r0 : List ℚ) (tl : List (List ℚ))
    (hrect : ∀ row ∈ r0 :: tl, row.length = r0.length)
    (hc : r0.length < jd.k_vars) :
    jd.cdf (.mat (r0 :: tl)) ca? none = .error .indexError := by
  unfold CopulaDistribution.cdf
  simp only [resolve_none_mat, exBind_ok]
  rw [range_split_at jd.k_vars r0.length hc]
  have hpref : ∀ i ∈ List.range r0.length, ∃ b, (do
      let mi ← listIdx jd.marginals i mZero
      let yi ← ixLast (.mat (r0 :: tl)) i
      let ai ← listIdx (List.replicate r0.length ([] : List ℚ)) i []
      pure (mi.cdfN yi ai) : Except PyErr NArr) = .ok b := by
    intro i hi
    have hic : i < r0.length := List.mem_range.mp hi
    refine ⟨(jd.marginals.getD i mZero).cdfN (.vec (colD (r0 :: tl) i))
      ((List.replicate r0.length ([] : List ℚ)).getD i []), ?_⟩
    simp only [listIdx_lt jd.marginals i mZero (lt_trans hic hc),
      ixLast_mat (r0 :: tl) i (fun row hr => by rw [hrect row hr]; exact hic),
      listIdx_lt (List.replicate r0.length ([] : List ℚ)) i []
        (by rw [List.length_replicate]; exact hic),
      exBind_ok]
    rfl
  have hfail : (do
      let mi ← listIdx jd.marginals r0.length mZero
      let yi ← ixLast (.mat (r0 :: tl)) r0.length
      let ai ← listIdx (List.replicate r0.length ([] : List ℚ)) r0.length []
      pure (mi.cdfN yi ai) : Except PyErr NArr) = .error .indexError := by
    simp only [listIdx_lt jd.marginals r0.length mZero hc,
      ixLast_mat_err r0 tl r0.length (le_refl _), exBind_ok, exBind_err]
  rw [exMapM_err (List.range r0.length) r0.length _ _ .indexError hpref hfail]
  rfl

theorem logpdf_short_err (jd : CopulaDistribution) (ca? : Option (List ℚ))
    (r0 : List ℚ) (tl : List (List ℚ))
    (hrect : ∀ row ∈ r0 :: tl, row.length = r0.length)
    (hc : r0.length < jd.k_vars) :
    jd.logpdf (.mat (r0 :: tl)) ca? none = .error .indexError := by
  unfold CopulaDistribution.logpdf
  simp only [resolve_none_mat, exBind_ok]
  rw [range_split_at jd.k_vars r0.length hc]
  rw [List.foldlM_append]
  have herr : ∀ (s1 : NArr) (s2 : List NArr), (do
      let mi ← listIdx jd.marginals r0.length mZero
      let yi ← ixLast (.mat (r0 :: tl)) r0.length
      let ai ← listIdx (List.replicate r0.length ([] : List ℚ)) r0.length []
      let l ← nadd s1 (mi.logpdfN yi ai)
      pure (l, s2 ++ [mi.cdfN yi ai]) : Except PyErr (NArr × List NArr))
      = .error .indexError := by
    intro s1 s2
    simp only [listIdx_lt jd.marginals r0.length mZero hc,
      ixLast_mat_err r0 tl r0.length (le_refl _), exBind_ok, exBind_err]
  rcases Nat.eq_zero_or_pos r0.length with hc0 | hcpos
  · rw [show List.range r0.length = ([] : List ℕ) from by rw [hc0]; exact List.range_zero]
    simp only [List.foldlM_nil, pure_bind, List.foldlM_cons, herr, exBind_err]
  · obtain ⟨i0, idxs, hr⟩ : ∃ i0 idxs, List.range r0.length = i0 :: idxs := by
      cases hkv : List.range r0.length with
      | nil =>
        rw [List.range_eq_nil] at hkv
        omega
      | cons a b => exact ⟨a, b, rfl⟩
    rw [hr]
    have hstep : ∀ (st' : NArr × List NArr) (j : ℕ), j ∈ i0 :: idxs → (do
        let mi ← listIdx jd.marginals j mZero
        let yi ← ixLast (.mat (r0 :: tl)) j
        let ai ← listIdx (List.replicate r0.length ([] : List ℚ)) j []
        let l ← nadd st'.1 (mi.logpdfN yi ai)
        pure (l, st'.2 ++ [mi.cdfN yi ai]) : Except PyErr (NArr × List NArr))
        = (nadd st'.1 (.vec ((r0 :: tl).map (fun row =>
            (jd.marginals.getD j mZero).logpdf0 (row.getD j 0)
              ((List.replicate r0.length ([] : List ℚ)).getD j []))))).bind
          (fun l => .ok (l, st'.2 ++ [NArr.vec ((r0 :: tl).map (fun row =>
            (jd.marginals.getD j mZero).cdf0 (row.getD j 0)
              ((List.replicate r0.length ([] : List ℚ)).getD j [])))])) := by
      intro st' j hj
      have hjc : j < r0.length := List.mem_range.mp (hr ▸ hj)
      have h1 : (jd.marginals.getD j mZero).logpdfN (.vec (colD (r0 :: tl) j))
          ((List.replicate r0.length ([] : List ℚ)).getD j [])
          = .vec ((r0 :: tl).map (fun row =>
            (jd.marginals.getD j mZero).logpdf0 (row.getD j 0)
              ((List.replicate r0.length ([] : List ℚ)).getD j []))) := by
        show NArr.vec ((colD (r0 :: tl) j).map _) = _
        unfold colD
        rw [List.map_map]
        rfl
      have h2 : (jd.marginals.getD j mZero).cdfN (.vec (colD (r0 :: tl) j))
          ((List.replicate r0.length ([] : List ℚ)).getD j [])
          = .vec ((r0 :: tl).map (fun row =>
            (jd.marginals.getD j mZero).cdf0 (row.getD j 0)
              ((List.replicate r0.length ([] : List ℚ)).getD j []))) := by
        show NArr.vec ((colD (r0 :: tl) j).map _) = _
        unfold colD
        rw [List.map_map]
        rfl
      simp only [listIdx_lt jd.marginals j mZero (lt_trans hjc hc),
        ixLast_mat (r0 :: tl) j (fun row hrw => by rw [hrect row hrw]; exact hjc),
        listIdx_lt (List.replicate r0.length ([] : List ℚ)) j []
          (by rw [List.length_replicate]; exact hjc),
        exBind_ok, h1, h2]
      rfl
    rw [foldChainVec (r0 :: tl) _
      (fun j row => (jd.marginals.getD j mZero).logpdf0 (row.getD j 0)
        ((List.replicate r0.length ([] : List ℚ)).getD j []))
      (fun j => NArr.vec ((r0 :: tl).map (fun row =>
        (jd.marginals.getD j mZero).cdf0 (row.getD j 0)
          ((List.replicate r0.length ([] : List ℚ)).getD j []))))
      i0 idxs (fun _ => 0) (.scalar 0) [] hstep (Or.inl ⟨rfl, fun _ => rfl⟩)]
    simp only [exBind_ok]
    simp only [List.foldlM_cons, herr, exBind_err]

/-! The claim theorems. -/

/-- Claim C1: for every observation matrix `y` with `k_vars` columns, copula
parameter tuple `cop_args` and per-marginal argument tuples `marg_args`,
`CopulaDistribution.logpdf(y, cop_args, marg_args)` equals, row by row, the
sum over `i` of `marginals[i].logpdf(y_i, *marg_args[i])` plus
`copula.logpdf(u, cop_args)` where `u` is the column-stacked matrix of the
marginal cdf values — the Sklar chain-rule decomposition in log form. -/
theorem sklar_logpdf_decomposition (jd : CopulaDistribution) (ca : List ℚ)
    (ma : List (List ℚ)) (xss : List (List ℚ))
    (hk : 1 ≤ jd.k_vars) (hma : ma.length = jd.k_vars)
    (hrect : ∀ row ∈ xss, row.length = jd.k_vars) :
    jd.logpdf (.mat xss) (some ca) (some ma) = .ok (.vec (xss.map (fun row =>
      margLogpdfSum jd.marginals ma row
        + jd.copula.logpdf0 (margCdfRow jd.marginals ma row) ca))) :=
  logpdf_mat_eq jd (some ca) (some ma) ma xss rfl hk (le_of_eq hma.symm)
    (fun row hr => le_of_eq (hrect row hr).symm)

/-- Witness for C1 at a concrete joint distribution and observation matrix. -/
theorem sklar_logpdf_decomposition_witness :
    jdEx.logpdf (.mat [[1, 2], [3, 4]]) (some []) (some [[], []])
      = .ok (.vec ([[1, 2], [3, 4]].map (fun row =>
        margLogpdfSum jdEx.marginals [[], []] row
          + jdEx.copula.logpdf0 (margCdfRow jdEx.marginals [[], []] row) []))) :=
  sklar_logpdf_decomposition jdEx [] [[], []] [[1, 2], [3, 4]]
    (by decide) (by decide) (by decide)

/-- Claim C2 (code bug): the base-contract `Copula.logpdf` computes
`np.log(self.pdf(u, *args))` — the parameter tuple is unpacked into separate
positional arguments — rather than `np.log(self.pdf(u, args))` as the
contract documents.  The two agree only for an empty `args`: a 1-tuple binds
the family pdf's `args` parameter to a bare number, and two or more
parameters raise `TypeError`. -/
theorem base_logpdf_unpacks_args_bug :
    Copula.logpdf (fun x => x) pdfEx (NArr.vec [1/2]) [2]
        ≠ Copula.logpdf_asDocumented (fun x => x) pdfEx (NArr.vec [1/2]) [2]
      ∧ Copula.logpdf (fun x => x) pdfEx (NArr.vec [1/2]) [2, 3] = .error .typeError
      ∧ Copula.logpdf_asDocumented (fun x => x) pdfEx (NArr.vec [1/2]) [2, 3]
        = .ok (.vec [11/2])
      ∧ Copula.logpdf (fun x => x) pdfEx (NArr.vec [1/2]) []
        = Copula.logpdf_asDocumented (fun x => x) pdfEx (NArr.vec [1/2]) [] :=
  ⟨by with_unfolding_all decide, rfl, by with_unfolding_all decide, rfl⟩

/-- Claim C3: each column `i` of the `rvs` output is
`marginals[i].ppf(0.5 + (1 - 1e-10) * (u_i - 0.5), *marg_args[i])` applied to
the copula's uniform draw `u_i` — the symmetric contraction toward `0.5`
before the inverse cdf. -/
theorem rvs_ppf_contracted_columns (jd : CopulaDistribution) (nobs : ℕ)
    (ca? : Option (List ℚ)) (ma? : Option (List (List ℚ)))
    (hn : 1 ≤ nobs)
    (hlen : (jd.copula.rvsF nobs (ca?.getD jd.cop_args)).length = nobs)
    (hmaR : jd.k_vars ≤ (ma?.getD jd.defaultMargArgsRvs).length)
    (hs : ∀ row ∈ jd.copula.rvsF nobs (ca?.getD jd.cop_args),
      row.length = jd.k_vars) :
    jd.rvs nobs ca? ma? = .ok ((jd.copula.rvsF nobs (ca?.getD jd.cop_args)).map
      (fun row => rvsRowFrom 0 jd.marginals (ma?.getD jd.defaultMargArgsRvs) row))
    ∧ ∀ j i, j < nobs → i < jd.k_vars →
      ∀ m, jd.rvs nobs ca? ma? = .ok m →
      (m.getD j []).getD i 0 = (jd.marginals.getD i mZero).ppf0
        (contract (((jd.copula.rvsF nobs (ca?.getD jd.cop_args)).getD j []).getD i 0))
        ((ma?.getD jd.defaultMargArgsRvs).getD i []) := by
  have heq := rvs_eq jd nobs ca? ma? hmaR hs
  have hrow : ∀ row ∈ jd.copula.rvsF nobs (ca?.getD jd.cop_args),
      transformSeg 0 jd.marginals (ma?.getD jd.defaultMargArgsRvs) row
      = rvsRowFrom 0 jd.marginals (ma?.getD jd.defaultMargArgsRvs) row := by
    intro row hr
    rw [transformSeg_rvsRow jd.marginals 0 _ row
      (by rw [hs row hr]; simp [CopulaDistribution.k_vars])]
    rfl
  constructor
  · rw [heq]
    exact congrArg _ (List.map_congr_left hrow)
  · intro j i hj hi m hm
    rw [heq] at hm
    injection hm with hm
    subst hm
    have hjlen : j < (jd.copula.rvsF nobs (ca?.getD jd.cop_args)).length := by
      rw [hlen]
      exact hj
    rw [getD_map_lt _ _ j hjlen [] []]
    have hmem : (jd.copula.rvsF nobs (ca?.getD jd.cop_args)).getD j []
        ∈ jd.copula.rvsF nobs (ca?.getD jd.cop_args) := by
      rw [List.getD_eq_getElem _ _ hjlen]
      exact List.getElem_mem _
    rw [hrow _ hmem, rvsRowFrom_getD jd.marginals 0 i _ _ hi, Nat.zero_add]

/-- Witness for C3 at a concrete joint distribution whose copula draws two
rows `[0, 1]`. -/
theorem rvs_ppf_contracted_columns_witness :
    jdEx.rvs 2 none none
      = .ok ((jdEx.copula.rvsF 2 (Option.getD none jdEx.cop_args)).map
        (fun row => rvsRowFrom 0 jdEx.marginals
          (Option.getD none jdEx.defaultMargArgsRvs) row)) :=
  (rvs_ppf_contracted_columns jdEx 2 none none (by decide) (by decide)
    (by decide) (by decide)).1

/-- Claim C4: the contraction `0.5 + (1 - 1e-10) * (u - 0.5)` maps the closed
interval `[0, 1]` strictly inside the open interval `(0, 1)`, so `rvs`
evaluates each marginal's `ppf` only at interior arguments: every entry of
the returned matrix is the marginal's `ppf` at a point strictly between 0
and 1 (hence finite whenever the `ppf` is finite on the open interval). -/
theorem rvs_interior_ppf_arguments (jd : CopulaDistribution) (nobs : ℕ)
    (ca? : Option (List ℚ)) (ma? : Option (List (List ℚ)))
    (hmaR : jd.k_vars ≤ (ma?.getD jd.defaultMargArgsRvs).length)
    (hs : ∀ row ∈ jd.copula.rvsF nobs (ca?.getD jd.cop_args),
      row.length = jd.k_vars)
    (hunit : ∀ row ∈ jd.copula.rvsF nobs (ca?.getD jd.cop_args),
      ∀ x ∈ row, 0 ≤ x ∧ x ≤ 1) :
    (∀ u : ℚ, 0 ≤ u → u ≤ 1 → 0 < contract u ∧ contract u < 1)
    ∧ ∃ m, jd.rvs nobs ca? ma? = .ok m
      ∧ ∀ row ∈ m, ∀ i, i < jd.k_vars → ∃ v, 0 < v ∧ v < 1
        ∧ row.getD i 0 = (jd.marginals.getD i mZero).ppf0 v
          ((ma?.getD jd.defaultMargArgsRvs).getD i []) := by
  have hcontract : ∀ u : ℚ, 0 ≤ u → u ≤ 1 → 0 < contract u ∧ contract u < 1 := by
    intro u h0 h1
    unfold contract eps
    constructor <;> nlinarith
  refine ⟨hcontract, _, rvs_eq jd nobs ca? ma? hmaR hs, ?_⟩
  intro row hrowmem i hi
  obtain ⟨r, hr, rfl⟩ := List.mem_map.mp hrowmem
  have hseg : transformSeg 0 jd.marginals (ma?.getD jd.defaultMargArgsRvs) r
      = rvsRowFrom 0 jd.marginals (ma?.getD jd.defaultMargArgsRvs) r := by
    rw [transformSeg_rvsRow jd.marginals 0 _ r
      (by rw [hs r hr]; simp [CopulaDistribution.k_vars])]
    rfl
  rw [hseg, rvsRowFrom_getD jd.marginals 0 i _ _ hi, Nat.zero_add]
  refine ⟨contract (r.getD i 0), ?_, ?_, rfl⟩
  · have hil : i < r.length := by
      rw [hs r hr]
      exact hi
    have hx : r.getD i 0 ∈ r := by
      rw [List.getD_eq_getElem _ _ hil]
      exact List.getElem_mem _
    exact (hcontract _ (hunit r hr _ hx).1 (hunit r hr _ hx).2).1
  · have hil : i < r.length := by
      rw [hs r hr]
      exact hi
    have hx : r.getD i 0 ∈ r := by
      rw [List.getD_eq_getElem _ _ hil]
      exact List.getElem_mem _
    exact (hcontract _ (hunit r hr _ hx).1 (hunit r hr _ hx).2).2

/-- Witness for C4: the contraction keeps the boundary draws 0 and 1 strictly
inside the unit interval for the concrete joint distribution. -/
theorem rvs_interior_ppf_arguments_witness :
    0 < contract 0 ∧ contract 0 < 1 :=
  (rvs_interior_ppf_arguments jdEx 2 none none (by decide) (by decide)
    (by with_unfolding_all decide)).1 0 (by norm_num) (by norm_num)

/-- Claim C5 counterexample: with `k_dim = 3` and a 2-column data matrix the
code takes the single-pair branch (it tests `x.shape[1] == 2`, the data's
column count), while the claim's `k_dim`-based rule would average tau over
all three pairs — and would even index a third column that does not exist. -/
theorem fit_corr_param_kdim_branch_false :
    Copula.fit_corr_param tauEx 3 hookEx [[1, 0], [0, 1]]
      ≠ Copula.fit_corr_param_asStated tauEx 3 hookEx [[1, 0], [0, 1]] := by
  with_unfolding_all decide

/-- Claim C5 (amended): `fit_corr_param` branches on the data's column count,
not on `k_dim`: a data matrix with exactly two columns yields the single
pairwise tau of those columns (whatever `k_dim` is); otherwise the result is
the arithmetic mean of tau over all unordered pairs `i < j < k_dim` of data
columns, passed to the family's `_arg_from_tau` hook.  `pairsBelow k` is
exactly the set of those unordered pairs. -/
theorem fit_corr_param_data_column_branch (tauF : List ℚ → List ℚ → ℚ) (k : ℕ)
    (hook : ℚ → Except PyErr ℚ) (data : List (List ℚ)) (c : ℕ)
    (hrect : ∀ row ∈ data, row.length = c) (hne : data ≠ []) :
    (∀ i j : ℕ, (i, j) ∈ pairsBelow k ↔ i < j ∧ j < k)
    ∧ (c = 2 → Copula.fit_corr_param tauF k hook data
        = hook (tauF (colD data 0) (colD data 1)))
    ∧ (c ≠ 2 → k ≤ c → Copula.fit_corr_param tauF k hook data
        = hook ((((pairsBelow k).map
            (fun p => tauF (colD data p.1) (colD data p.2))).sum)
          / (((pairsBelow k).map
            (fun p => tauF (colD data p.1) (colD data p.2))).length : ℚ))) := by
  have hpairs : ∀ i j : ℕ, (i, j) ∈ pairsBelow k ↔ i < j ∧ j < k := by
    intro i j
    unfold pairsBelow
    rw [List.mem_flatten]
    constructor
    · rintro ⟨l, hl, hmem⟩
      obtain ⟨i2, hi2, rfl⟩ := List.mem_map.mp hl
      obtain ⟨j2, hj2, heq⟩ := List.mem_map.mp hmem
      injection heq with e1 e2
      subst e1
      subst e2
      rw [List.mem_range] at hi2
      rw [List.mem_range'_1] at hj2
      omega
    · rintro ⟨hij, hjk⟩
      refine ⟨(List.range' (i + 1) (k - (i + 1))).map (fun j => (i, j)),
        List.mem_map.mpr ⟨i, by rw [List.mem_range]; omega, rfl⟩,
        List.mem_map.mpr ⟨j, by rw [List.mem_range'_1]; omega, rfl⟩⟩
  obtain ⟨d0, dtl, rfl⟩ : ∃ a l, data = a :: l := by
    cases data with
    | nil => exact absurd rfl hne
    | cons a l => exact ⟨a, l, rfl⟩
  have hd0 : d0.length = c := hrect d0 (List.mem_cons_self d0 dtl)
  refine ⟨hpairs, ?_, ?_⟩
  · intro hc2
    unfold Copula.fit_corr_param
    rw [if_pos (show ((d0 :: dtl).headD []).length = 2 from by
      show d0.length = 2
      omega)]
    have hcol : ∀ i, i < c → col (d0 :: dtl) i = .ok (colD (d0 :: dtl) i) :=
      fun i hic => col_eq _ i (fun row hr => by rw [hrect row hr]; exact hic)
    simp only [hcol 0 (by omega), hcol 1 (by omega), exBind_ok]
  · intro hc2 hkc
    unfold Copula.fit_corr_param
    rw [if_neg (show ¬ ((d0 :: dtl).headD []).length = 2 from by
      show ¬ d0.length = 2
      omega)]
    have hcol : ∀ i, i < c → col (d0 :: dtl) i = .ok (colD (d0 :: dtl) i) :=
      fun i hic => col_eq _ i (fun row hr => by rw [hrect row hr]; exact hic)
    have hbody : ∀ p ∈ pairsBelow k, (do
        let ci ← col (d0 :: dtl) p.1
        let cj ← col (d0 :: dtl) p.2
        pure (tauF ci cj) : Except PyErr ℚ)
        = .ok (tauF (colD (d0 :: dtl) p.1) (colD (d0 :: dtl) p.2)) := by
      intro p hp
      obtain ⟨i, j⟩ := p
      obtain ⟨hij, hjk⟩ := (hpairs i j).mp hp
      simp only [hcol i (by omega), hcol j (by omega), exBind_ok]
      rfl
    rw [exMapM_ok _ _ _ hbody]
    rfl

/-- Witness for C5 at concrete data with two columns and `k_dim = 3`. -/
theorem fit_corr_param_data_column_branch_witness :
    Copula.fit_corr_param tauEx 3 hookEx [[1, 0], [0, 1]]
      = hookEx (tauEx (colD [[1, 0], [0, 1]] 0) (colD [[1, 0], [0, 1]] 1)) :=
  (fit_corr_param_data_column_branch tauEx 3 hookEx [[1, 0], [0, 1]] 2
    (by decide) (List.cons_ne_nil _ _)).2.1 rfl

/-- Claim C6: `CopulaDistribution.pdf` is exactly `np.exp` mapped over the
result of `CopulaDistribution.logpdf` — there is no independent pdf
computation path (errors propagate unchanged). -/
theorem pdf_is_exp_of_logpdf (jd : CopulaDistribution) (expF : ℚ → ℚ) (y : NArr)
    (ca? : Option (List ℚ)) (ma? : Option (List (List ℚ))) :
    jd.pdf expF y ca? ma? = (jd.logpdf y ca? ma?).map (liftM1 expF) := rfl

/-- Claim C7 (shape contract): called with a flat vector of length `k_vars`,
`cdf`, `logpdf` and `pdf` return a 0-dimensional (scalar) result — the
trailing singleton dimension is squeezed away; called with an
`(n, k_vars)` matrix they return an `n`-length 1-dimensional result. -/
theorem eval_shape_contract (jd : CopulaDistribution) (expF : ℚ → ℚ)
    (ca? : Option (List ℚ)) (ma? : Option (List (List ℚ)))
    (ys : List ℚ) (xss : List (List ℚ)) (n : ℕ)
    (hk : 2 ≤ jd.k_vars) (hys : ys.length = jd.k_vars)
    (hrect : ∀ row ∈ xss, row.length = jd.k_vars)
    (hn : xss.length = n) (hn1 : 1 ≤ n)
    (hma : ∀ l, ma? = some l → l.length = jd.k_vars) :
    (jd.cdf (.vec ys) ca? ma? = .ok (.scalar (jd.copula.cdf0
        (margCdfRow jd.marginals (ma?.getD (List.replicate jd.k_vars [])) ys)
        (ca?.getD jd.cop_args)))
    ∧ jd.logpdf (.vec ys) ca? ma? = .ok (.scalar
        (margLogpdfSum jd.marginals (ma?.getD (List.replicate jd.k_vars [])) ys
          + jd.copula.logpdf0
            (margCdfRow jd.marginals (ma?.getD (List.replicate jd.k_vars [])) ys)
            (ca?.getD jd.cop_args)))
    ∧ jd.pdf expF (.vec ys) ca? ma? = .ok (.scalar (expF
        (margLogpdfSum jd.marginals (ma?.getD (List.replicate jd.k_vars [])) ys
          + jd.copula.logpdf0
            (margCdfRow jd.marginals (ma?.getD (List.replicate jd.k_vars [])) ys)
            (ca?.getD jd.cop_args)))))
    ∧ ((jd.cdf (.mat xss) ca? ma? = .ok (.vec (xss.map (fun row =>
          jd.copula.cdf0
            (margCdfRow jd.marginals (ma?.getD (List.replicate jd.k_vars [])) row)
            (ca?.getD jd.cop_args))))
        ∧ (xss.map (fun row => jd.copula.cdf0
            (margCdfRow jd.marginals (ma?.getD (List.replicate jd.k_vars [])) row)
            (ca?.getD jd.cop_args))).length = n)
      ∧ (jd.logpdf (.mat xss) ca? ma? = .ok (.vec (xss.map (fun row =>
          margLogpdfSum jd.marginals (ma?.getD (List.replicate jd.k_vars [])) row
            + jd.copula.logpdf0
              (margCdfRow jd.marginals (ma?.getD (List.replicate jd.k_vars [])) row)
              (ca?.getD jd.cop_args))))
        ∧ (xss.map (fun row =>
          margLogpdfSum jd.marginals (ma?.getD (List.replicate jd.k_vars [])) row
            + jd.copula.logpdf0
              (margCdfRow jd.marginals (ma?.getD (List.replicate jd.k_vars [])) row)
              (ca?.getD jd.cop_args))).length = n)
      ∧ (jd.pdf expF (.mat xss) ca? ma? = .ok (.vec (xss.map (fun row => expF
          (margLogpdfSum jd.marginals (ma?.getD (List.replicate jd.k_vars [])) row
            + jd.copula.logpdf0
              (margCdfRow jd.marginals (ma?.getD (List.replicate jd.k_vars [])) row)
              (ca?.getD jd.cop_args)))))
        ∧ (xss.map (fun row => expF
          (margLogpdfSum jd.marginals (ma?.getD (List.replicate jd.k_vars [])) row
            + jd.copula.logpdf0
              (margCdfRow jd.marginals (ma?.getD (List.replicate jd.k_vars [])) row)
              (ca?.getD jd.cop_args)))).length = n)) := by
  have hresv : resolveMargArgsEval (.vec ys) ma?
      = .ok (ma?.getD (List.replicate jd.k_vars [])) := by
    cases ma? with
    | some l => rfl
    | none =>
      rw [resolve_none_vec, hys]
      rfl
  have hresm : resolveMargArgsEval (.mat xss) ma?
      = .ok (ma?.getD (List.replicate jd.k_vars [])) := by
    cases ma? with
    | some l => rfl
    | none =>
      obtain ⟨r0, tl, rfl⟩ : ∃ a l, xss = a :: l := by
        cases xss with
        | nil =>
          rw [List.length_nil] at hn
          omega
        | cons a l => exact ⟨a, l, rfl⟩
      rw [resolve_none_mat, hrect r0 (List.mem_cons_self r0 tl)]
      rfl
  have hmalen : jd.k_vars ≤ (ma?.getD (List.replicate jd.k_vars [])).length := by
    cases ma? with
    | some l => exact le_of_eq (hma l rfl).symm
    | none => simp
  have hrowge : ∀ row ∈ xss, jd.k_vars ≤ row.length :=
    fun row hr => le_of_eq (hrect row hr).symm
  refine ⟨⟨cdf_vec_eq jd ca? ma? _ ys hresv hk hmalen (le_of_eq hys.symm),
      logpdf_vec_eq jd ca? ma? _ ys hresv hk hmalen (le_of_eq hys.symm), ?pv⟩,
    ⟨cdf_mat_eq jd ca? ma? _ xss hresm (by omega) hmalen hrowge,
      by rw [List.length_map]; exact hn⟩,
    ⟨logpdf_mat_eq jd ca? ma? _ xss hresm (by omega) hmalen hrowge,
      by rw [List.length_map]; exact hn⟩,
    ?pm, by rw [List.length_map]; exact hn⟩
  case pv =>
    unfold CopulaDistribution.pdf
    rw [logpdf_vec_eq jd ca? ma? _ ys hresv hk hmalen (le_of_eq hys.symm)]
    rfl
  case pm =>
    unfold CopulaDistribution.pdf
    rw [logpdf_mat_eq jd ca? ma? _ xss hresm (by omega) hmalen hrowge, exMap_ok]
    show Except.ok (NArr.vec ((xss.map (fun row =>
      margLogpdfSum jd.marginals (ma?.getD (List.replicate jd.k_vars [])) row
        + jd.copula.logpdf0
          (margCdfRow jd.marginals (ma?.getD (List.replicate jd.k_vars [])) row)
          (ca?.getD jd.cop_args))).map expF)) = _
    rw [List.map_map]
    rfl

/-- Witness for C7 at a concrete flat-vector input. -/
theorem eval_shape_contract_witness :
    jdEx.cdf (.vec [1, 2]) none none = .ok (.scalar (jdEx.copula.cdf0
      (margCdfRow jdEx.marginals (Option.getD none (List.replicate jdEx.k_vars [])) [1, 2])
      (Option.getD none jdEx.cop_args))) :=
  (eval_shape_contract jdEx (fun x => x) none none [1, 2] [[1, 2]] 1
    (by decide) (by decide) (by decide) (by decide) (by decide)
    (fun l hl => nomatch hl)).1.1

/-- Claim C8 counterexample: the claim says any last-axis size different from
`k_vars` raises a shape failure at the column-stacking step.  In fact a
matrix with MORE columns than `k_vars` (here 3 columns, 2 marginals) raises
nothing at all — the extra columns are silently ignored — and a matrix with
FEWER columns fails with an IndexError at the per-column extraction, which
is a different error than the ValueError a column-stack mismatch raises. -/
theorem shape_mismatch_no_stack_failure :
    jdEx.cdf (.mat [[1, 2, 3]]) none none = .ok (.vec [5])
    ∧ jdEx.cdf (.mat [[1]]) none none = .error .indexError
    ∧ PyErr.indexError ≠ PyErr.valueError :=
  ⟨by with_unfolding_all decide, by with_unfolding_all decide, by decide⟩

/-- Claim C8 (amended): for a rectangular input with fewer columns than
`k_vars`, `cdf` and `logpdf` raise an IndexError at the per-column
extraction `y[..., i]` (before any column stacking); for an input with more
columns than `k_vars` no error is raised — the extra columns are ignored. -/
theorem shape_mismatch_index_failure (jd : CopulaDistribution)
    (ca? : Option (List ℚ)) (r0 : List ℚ) (tl : List (List ℚ))
    (hrect : ∀ row ∈ r0 :: tl, row.length = r0.length) (hk : 1 ≤ jd.k_vars) :
    (r0.length < jd.k_vars →
      jd.cdf (.mat (r0 :: tl)) ca? none = .error .indexError
      ∧ jd.logpdf (.mat (r0 :: tl)) ca? none = .error .indexError)
    ∧ (jd.k_vars < r0.length →
      (∃ v, jd.cdf (.mat (r0 :: tl)) ca? none = .ok v)
      ∧ ∃ v, jd.logpdf (.mat (r0 :: tl)) ca? none = .ok v) := by
  constructor
  · intro hc
    exact ⟨cdf_short_err jd ca? r0 tl hrect hc,
      logpdf_short_err jd ca? r0 tl hrect hc⟩
  · intro hc
    have hres : resolveMargArgsEval (.mat (r0 :: tl)) none
        = .ok (List.replicate r0.length []) := resolve_none_mat r0 tl
    have hmaR : jd.k_vars ≤ (List.replicate r0.length ([] : List ℚ)).length := by
      rw [List.length_replicate]
      omega
    have hrow : ∀ row ∈ r0 :: tl, jd.k_vars ≤ row.length := fun row hr => by
      rw [hrect row hr]
      omega
    exact ⟨⟨_, cdf_mat_eq jd ca? none _ _ hres hk hmaR hrow⟩,
      ⟨_, logpdf_mat_eq jd ca? none _ _ hres hk hmaR hrow⟩⟩

/-- Witness for C8 (amended) at concrete inputs with one and three columns
against two marginals. -/
theorem shape_mismatch_index_failure_witness :
    jdEx.cdf (.mat [[9]]) none none = .error .indexError
    ∧ ∃ v, jdEx.cdf (.mat [[9, 8, 7]]) none none = .ok v :=
  ⟨((shape_mismatch_index_failure jdEx none [9] [] (by decide) (by decide)).1
      (by decide)).1,
    ((shape_mismatch_index_failure jdEx none [9, 8, 7] [] (by decide)
      (by decide)).2 (by decide)).1⟩

/-- Claim C9: on the abstract base contract, `rvs` raises NotImplementedError
for every `nobs`, `args` and `random_state`, and the tau-inversion hook
`_arg_from_tau` raises NotImplementedError for every `tau`; a concrete
family must override both. -/
theorem base_rvs_and_tau_hook_not_implemented :
    ∀ (nobs : ℕ) (args : List ℚ) (random_state : Option ℕ) (tau : ℚ),
    Copula.rvs nobs args random_state = .error .notImplementedError
    ∧ Copula._arg_from_tau tau = .error .notImplementedError :=
  fun _ _ _ _ => ⟨rfl, rfl⟩

/-- Claim C10: with `marg_args = None`, `cdf`/`logpdf` build the default
marginal-argument list with one empty tuple per entry of the input's last
axis (`y.shape[-1]` tuples) — resolving exactly as if that list had been
passed — whereas `rvs` builds it with one empty tuple per marginal
(`k_vars` tuples); when `y.shape[-1]` differs from `k_vars` the two default
lists have different lengths. -/
theorem default_marg_args_length_mismatch (jd : CopulaDistribution) (y : NArr)
    (m : ℕ) (ca? : Option (List ℚ)) (hy : shapeLast y = .ok m) :
    defaultMargArgsEval y = .ok (List.replicate m [])
    ∧ (List.replicate m ([] : List ℚ)).length = m
    ∧ jd.defaultMargArgsRvs.length = jd.k_vars
    ∧ jd.cdf y ca? none = jd.cdf y ca? (some (List.replicate m []))
    ∧ jd.logpdf y ca? none = jd.logpdf y ca? (some (List.replicate m []))
    ∧ (∀ nobs, jd.rvs nobs ca? none
        = jd.rvs nobs ca? (some (List.replicate jd.k_vars [])))
    ∧ (m ≠ jd.k_vars →
        (List.replicate m ([] : List ℚ)).length ≠ jd.defaultMargArgsRvs.length) := by
  have hdef : defaultMargArgsEval y = .ok (List.replicate m []) := by
    unfold defaultMargArgsEval
    rw [hy]
    rfl
  refine ⟨hdef, List.length_replicate m [],
    by simp [CopulaDistribution.defaultMargArgsRvs], ?_, ?_, ?_, ?_⟩
  · unfold CopulaDistribution.cdf
    rw [show resolveMargArgsEval y none
      = .ok (List.replicate m ([] : List ℚ)) from hdef]
    rfl
  · unfold CopulaDistribution.logpdf
    rw [show resolveMargArgsEval y none
      = .ok (List.replicate m ([] : List ℚ)) from hdef]
    rfl
  · intro nobs
    rfl
  · intro hne
    simp only [List.length_replicate, CopulaDistribution.defaultMargArgsRvs]
    exact hne

/-- Witness for C10 at a flat 3-vector against a 2-marginal distribution. -/
theorem default_marg_args_length_mismatch_witness :
    defaultMargArgsEval (NArr.vec [1, 2, 3]) = .ok (List.replicate 3 []) :=
  (default_marg_args_length_mismatch jdEx (NArr.vec [1, 2, 3]) 3 none rfl).1
